import Mathlib

/-!
Shallow embedding of the wavetracker analysis-pipeline orchestration
(wavetracker/wavetracker.py) and its snippet windowing, state
accumulation, checkpointing and tracking hand-off.

Real values (frequencies, times, spectral powers, identity labels) are
embedded as rationals; the not-a-number identity sentinel is embedded as
the `none` case of `Option`; whole-number indices recorded into the
accumulated index vector are embedded as integers, matching the Python
arbitrary-precision integers that arise from `tmp_idx_v + idx_0`.
-/

/-- One local time bin of a spectrogram snippet: its time-axis value and
the summed-spectrum column for that bin.  The spectrogram engine
guarantees that the summed spectrum has exactly one column per local
time-axis entry, which this representation makes structural. -/
structure TimeBin where
  t : ℚ
  col : List ℚ

/-- The spectral content the engine holds for one processed snippet: the
ordered local time bins and the per-channel spectral tensor, indexed as
channel, frequency index, local time index (the source array
`self.Spec.spec[channel, f_idx, t_idx]`). -/
structure SnippetSpec where
  bins : List TimeBin
  tensor : ℕ → ℕ → ℕ → ℚ

/-- Modelled from the spec: the SpectrogramEngine
(wavetracker/spectrogram.py, not part of the sources under review)
exposes a growing global time axis, the current snippet spectral data
(local time axis, summed spectrum, per-channel tensor), the frequency
axis, and a running count of processed snippets. -/
structure EngineState where
  times : List ℚ
  spec_freqs : List ℚ
  cur : SnippetSpec
  itter_count : ℕ

/-- Accumulated pipeline state of `AnalysisPipeline`: the four parallel
detection sequences, the global time axis copy, and the two stage flags
set at construction (`_get_signals` and `do_tracking`). -/
structure PipelineState where
  fund_v : List ℚ
  idx_v : List ℤ
  sign_v : List (List ℚ)
  ident_v : List (Option ℚ)
  times : List ℚ
  get_signals : Bool
  do_tracking : Bool

/-- On-disk checkpoint contents: the five persisted arrays
(fund_v.npy, idx_v.npy, sign_v.npy, ident_v.npy, times.npy). -/
structure Checkpoint where
  fund_v : List ℚ
  idx_v : List ℤ
  sign_v : List (List ℚ)
  ident_v : List (Option ℚ)
  times : List ℚ

/-- Fresh pipeline state, as built by `AnalysisPipeline.__init__` when no
pre-analyzed data file is found in the save directory. -/
def emptyState : PipelineState :=
  ⟨[], [], [], [], [], true, true⟩

/-- Fresh engine state over a fixed frequency axis. -/
def emptyEngine (freqs : List ℚ) : EngineState :=
  ⟨[], freqs, ⟨[], fun _ _ _ => 0⟩, 0⟩

/-- State selection of `AnalysisPipeline.__init__` (wavetracker.py lines
153 to 186): with no checkpoint, both stage flags are left true; with a
checkpoint, the five arrays are loaded, the signal-extraction flag is
set to false through the property setter (which purges nothing when the
new value is falsy), and tracking is disabled exactly when at least one
loaded identity label is assigned (not NaN). -/
def initPipeline : Option Checkpoint → PipelineState
  | none => ⟨[], [], [], [], [], true, true⟩
  | some c =>
    ⟨c.fund_v, c.idx_v, c.sign_v, c.ident_v, c.times, false,
      !(c.ident_v.any Option.isSome)⟩

/-- The arrays written by `AnalysisPipeline.save` (lines 451 to 464). -/
def saveCheckpoint (st : PipelineState) : Checkpoint :=
  ⟨st.fund_v, st.idx_v, st.sign_v, st.ident_v, st.times⟩

/-- The `get_signals` property setter (lines 198 to 210): a truthy value
purges the five accumulated sequences before the flag is stored, a falsy
value only stores the flag. -/
def setGetSignals (b : Bool) (st : PipelineState) : PipelineState :=
  if b then
    { st with
      fund_v := []
      idx_v := []
      sign_v := []
      ident_v := []
      times := []
      get_signals := b }
  else
    { st with get_signals := b }

/-- Modelled from the spec: `Spectrogram.snippet_spectrogram`
(wavetracker/spectrogram.py, not part of the sources under review)
appends exactly one global time-axis entry per local time bin of the
processed snippet, installs the snippet spectral data as current, and
advances the snippet counter. -/
def snippet_spectrogram (eng : EngineState) (s : SnippetSpec) : EngineState :=
  { eng with
    times := eng.times ++ s.bins.map TimeBin.t
    cur := s
    itter_count := eng.itter_count + 1 }

/-- Index of the first element of `freqs` minimizing the absolute
distance to `f`, scanning the tail with running best value and index:
the embedding of `np.argmin(np.abs(self.Spec.spec_freqs - f))`. -/
def argminAux (f : ℚ) : List ℚ → ℕ → ℚ → ℕ → ℕ
  | [], _, _, best_i => best_i
  | x :: xs, i, best_v, best_i =>
    if |x - f| < best_v then argminAux f xs (i + 1) |x - f| i
    else argminAux f xs (i + 1) best_v best_i

/-- Entry point of the nearest-frequency-bin search (line 437). -/
def argminIdx (freqs : List ℚ) (f : ℚ) : ℕ :=
  match freqs with
  | [] => 0
  | x :: xs => argminAux f xs 1 |x - f| 0

/-- Local time-bin index vector of one snippet, the embedding of
`np.hstack([np.ones(len(f)) * enu for enu, f in enumerate(tmp_fundamentals)])`
(lines 427 to 435), with `e` the running enumeration counter. -/
def binIdx : ℕ → List (List ℚ) → List ℕ
  | _, [] => []
  | e, f :: rest => List.replicate f.length e ++ binIdx (e + 1) rest

/-- Frequency-bin index per detection, the embedding of the `f_idx`
comprehension (lines 436 to 440): for every bin in order, for every
fundamental of that bin, the nearest frequency-axis index. -/
def fIdx (freqs : List ℚ) (tmpF : List (List ℚ)) : List ℕ :=
  (tmpF.map (fun fs => fs.map (argminIdx freqs))).flatten

/-- Tail of `AnalysisPipeline.extract_snippet_signals` (lines 426 to
449), factored over the per-bin fundamentals list `tmpF`: concatenate
fundamentals, build local indices, look up signatures in the engine
tensor, remap indices by `idx_0 = len(times) - len(spec_times)`, extend
the three detection sequences and rebuild the identity sequence as
all-NaN of the new total detection count.  The `extend` calls succeed
only when the three vectors are Python lists (fresh or purged states);
this function models that successful path, while the AttributeError
raised when the vectors are checkpoint-loaded numpy arrays is modelled
by the fallible loop step `stepSnippetE` below. -/
def extractFrom (tmpF : List (List ℚ)) (chans : ℕ) (st : PipelineState)
    (eng : EngineState) : PipelineState :=
  let tmp_fund_v := tmpF.flatten
  let tmp_idx_v := binIdx 0 tmpF
  let f_idx := fIdx eng.spec_freqs tmpF
  let tmp_sign_v := (f_idx.zip tmp_idx_v).map
    (fun p => (List.range chans).map (fun c => eng.cur.tensor c p.1 p.2))
  let idx_0 : ℤ := (eng.times.length : ℤ) - (eng.cur.bins.length : ℤ)
  let new_idx_v := st.idx_v ++ tmp_idx_v.map (fun (e : ℕ) => (e : ℤ) + idx_0)
  { st with
    fund_v := st.fund_v ++ tmp_fund_v
    idx_v := new_idx_v
    sign_v := st.sign_v ++ tmp_sign_v
    ident_v := List.replicate new_idx_v.length none }

/-- CPU-path `extract_snippet_signals`: the external harmonic-group
detector composed with the fundamental reduction is abstracted as
`detect`, applied to every summed-spectrum column of the current
snippet, in bin order. -/
def extract_snippet_signals (detect : List ℚ → List ℚ) (chans : ℕ)
    (st : PipelineState) (eng : EngineState) : PipelineState :=
  extractFrom ((eng.cur.bins.map TimeBin.col).map detect) chans st eng

/-- One completion step of the worker pool: the worker that finished
task `i` writes its result into slot `i` of the shared result list,
regardless of when it finished. -/
def schedStep (detect : List ℚ → List ℚ) (cols : List (List ℚ))
    (acc : List (Option (List ℚ))) (i : ℕ) : List (Option (List ℚ)) :=
  match cols[i]? with
  | some c => acc.set i (some (detect c))
  | none => acc

/-- The parallel map of the CPU extraction path under an arbitrary
worker completion order: tasks complete in the order given by `order`,
each writing its result at its own index, starting from an empty result
list of the right length. -/
def schedMap (detect : List ℚ → List ℚ) (cols : List (List ℚ))
    (order : List ℕ) : List (Option (List ℚ)) :=
  order.foldl (schedStep detect cols) (List.replicate cols.length none)

/-- CPU-path extraction where the per-bin fundamentals were produced by
the worker pool completing in the order `order`; unfilled slots read as
empty. -/
def extractScheduled (detect : List ℚ → List ℚ) (chans : ℕ)
    (order : List ℕ) (st : PipelineState) (eng : EngineState) :
    PipelineState :=
  extractFrom
    ((schedMap detect (eng.cur.bins.map TimeBin.col) order).map
      (fun o => o.getD []))
    chans st eng

/-- One iteration of the snippet loop (`pipeline_CPU` lines 351 to 389,
`pipeline_GPU` lines 302 to 338): update the spectrogram engine, then
extract signals — unconditionally on the CPU path, gated on the
signal-extraction flag on the GPU path. -/
def stepSnippet (gpu : Bool) (detect : List ℚ → List ℚ) (chans : ℕ)
    (p : PipelineState × EngineState) (s : SnippetSpec) :
    PipelineState × EngineState :=
  let eng := snippet_spectrogram p.2 s
  let st :=
    if gpu then
      if p.1.get_signals then extract_snippet_signals detect chans p.1 eng
      else p.1
    else extract_snippet_signals detect chans p.1 eng
  (st, eng)

/-- The whole snippet loop over a list of snippet spectral contents. -/
def processSnippets (gpu : Bool) (detect : List ℚ → List ℚ) (chans : ℕ)
    (p : PipelineState × EngineState) (snips : List SnippetSpec) :
    PipelineState × EngineState :=
  snips.foldl (stepSnippet gpu detect chans) p

/-- The tracking hand-off of `AnalysisPipeline.run` (lines 278 to 288):
the identity sequence is overwritten with whatever label sequence the
tracking stage returned; no validation is performed. -/
def replace_identities (st : PipelineState) (labels : List (Option ℚ)) :
    PipelineState :=
  { st with ident_v := labels }

/-- Orchestrator state paired with the backing of the three extended
vectors: `true` when `_fund_v`, `_idx_v` and `_sign_v` are Python lists
(fresh construction, or after a truthy `get_signals` purge), `false`
when they are the numpy arrays produced by `np.load` at checkpoint
load, which have no `extend` method. -/
structure RunState where
  st : PipelineState
  listBacked : Bool

/-- Orchestrator construction over the save directory: a fresh state is
list-backed, a checkpoint-loaded state is array-backed. -/
def initRun : Option Checkpoint → RunState
  | none => ⟨initPipeline none, true⟩
  | some c => ⟨initPipeline (some c), false⟩

/-- One loop iteration including the error path of the `extend` calls
(lines 446 to 448): on an array-backed state the first `extend` raises
AttributeError, modelled as `none`; on a list-backed state the
iteration is `stepSnippet`.  On the GPU path extraction is gated on the
signal-extraction flag, so an array-backed state passes through
untouched there. -/
def stepSnippetE (gpu : Bool) (detect : List ℚ → List ℚ) (chans : ℕ)
    (p : RunState × EngineState) (s : SnippetSpec) :
    Option (RunState × EngineState) :=
  let eng := snippet_spectrogram p.2 s
  if gpu then
    if p.1.st.get_signals then
      if p.1.listBacked then
        some (⟨extract_snippet_signals detect chans p.1.st eng, true⟩, eng)
      else none
    else some (p.1, eng)
  else
    if p.1.listBacked then
      some (⟨extract_snippet_signals detect chans p.1.st eng, true⟩, eng)
    else none

/-- The whole snippet loop with the error path: the first failing
iteration aborts the run. -/
def processSnippetsE (gpu : Bool) (detect : List ℚ → List ℚ) (chans : ℕ)
    (p : RunState × EngineState) :
    List SnippetSpec → Option (RunState × EngineState)
  | [] => some p
  | s :: rest =>
    match stepSnippetE gpu detect chans p s with
    | some q => processSnippetsE gpu detect chans q rest
    | none => none

/-- `AnalysisPipeline.run` (lines 233 to 288): the snippet loop runs
when the signal-extraction flag or either engine product flag is set,
after which the pipeline copy of the time axis is refreshed from the
engine; tracking runs when the tracking flag is set, replacing the
identity sequence with the tracking result.  A loop iteration that
calls `extend` on checkpoint-loaded numpy arrays aborts the run with
AttributeError (line 446), modelled as `none`. -/
def runPipeline (gpu fine sparse : Bool) (snips : List SnippetSpec)
    (detect : List ℚ → List ℚ) (chans : ℕ)
    (trk : PipelineState → List (Option ℚ)) (r : RunState)
    (eng : EngineState) : Option (RunState × EngineState) :=
  if r.st.get_signals || fine || sparse then
    match processSnippetsE gpu detect chans (r, eng) snips with
    | none => none
    | some q =>
      some
        ((if ({ q.1.st with times := q.2.times } : PipelineState).do_tracking
          then
            (⟨replace_identities { q.1.st with times := q.2.times }
              (trk { q.1.st with times := q.2.times }),
              q.1.listBacked⟩ : RunState)
          else ⟨{ q.1.st with times := q.2.times }, q.1.listBacked⟩),
         q.2)
  else
    some
      ((if r.st.do_tracking then
          (⟨replace_identities r.st (trk r.st), r.listBacked⟩ : RunState)
        else r),
       eng)

/-- Window start offsets of the CPU snippet loop, the embedding of
`np.arange(0, N, step)` with `step = snippet_size - noverlap`
(lines 351 to 355): every multiple of `step` strictly below `N`. -/
def cpuStarts (N step : ℕ) : List ℕ :=
  (List.range ((N + step - 1) / step)).map (fun k => k * step)

/-- Sample count of the window sliced at start `i0`, the embedding of
the clamped slice `self.data[i0 : i0 + S]` (lines 368 to 371). -/
def windowLen (N S i0 : ℕ) : ℕ :=
  min S (N - i0)

/-- Terminate-flag condition of the CPU loop (lines 359 to 365): the
flag is set for the window starting at `i0` exactly when
`(N // step) * step == i0`. -/
def cpuTerminate (N step i0 : ℕ) : Bool :=
  decide (N / step * step = i0)

/-- Terminate-flag condition of the GPU loop (lines 310 to 314) at the
iteration where the engine snippet counter reads `k`: the flag is set
exactly when `N // snippet_size == k`. -/
def gpuTerminate (N S k : ℕ) : Bool :=
  decide (N / S = k)

/-- C7 counterexample: the tracking hand-off performs no length
validation — on a state holding 2 detections, a 1-label sequence is
stored verbatim, with no error raised. -/
theorem replace_identities_no_length_check :
    (replace_identities
      ⟨[1, 2], [0, 1], [[], []], [none, none], [], false, true⟩
      [some 3]).ident_v = [some 3]
    ∧ (replace_identities
      ⟨[1, 2], [0, 1], [[], []], [none, none], [], false, true⟩
      [some 3]).fund_v.length = 2 := by
  exact ⟨rfl, rfl⟩

/-- C7 amended: the tracking hand-off overwrites the identity sequence
with the given labels unconditionally and in order, whatever their
length, and leaves the fundamentals, index and signature sequences
unchanged; no length validation is performed. -/
theorem replace_identities_overwrites (st : PipelineState)
    (labels : List (Option ℚ)) :
    (replace_identities st labels).ident_v = labels
    ∧ (replace_identities st labels).fund_v = st.fund_v
    ∧ (replace_identities st labels).idx_v = st.idx_v
    ∧ (replace_identities st labels).sign_v = st.sign_v := by
  exact ⟨rfl, rfl, rfl, rfl⟩

/-- C8: writing a checkpoint from any pipeline state and constructing a
new pipeline over it reloads the five persisted sequences with the same
lengths, values and order as the state that was persisted. -/
theorem checkpoint_roundtrip (st : PipelineState) :
    (initPipeline (some (saveCheckpoint st))).fund_v = st.fund_v
    ∧ (initPipeline (some (saveCheckpoint st))).idx_v = st.idx_v
    ∧ (initPipeline (some (saveCheckpoint st))).sign_v = st.sign_v
    ∧ (initPipeline (some (saveCheckpoint st))).ident_v = st.ident_v
    ∧ (initPipeline (some (saveCheckpoint st))).times = st.times := by
  exact ⟨rfl, rfl, rfl, rfl, rfl⟩

/-- C10: setting the signal-extraction flag to true purges all five
accumulated sequences and leaves the tracking flag untouched; setting it
to false changes only the flag. -/
theorem get_signals_setter_effect (st : PipelineState) :
    (setGetSignals true st).fund_v = []
    ∧ (setGetSignals true st).idx_v = []
    ∧ (setGetSignals true st).sign_v = []
    ∧ (setGetSignals true st).ident_v = []
    ∧ (setGetSignals true st).times = []
    ∧ (setGetSignals true st).get_signals = true
    ∧ (setGetSignals true st).do_tracking = st.do_tracking
    ∧ setGetSignals false st = { st with get_signals := false } := by
  exact ⟨rfl, rfl, rfl, rfl, rfl, rfl, rfl, rfl⟩

/-- C5 counterexample: with N = 10 samples, snippet size S = 4 and
overlap O = 1 (step 3), the CPU loop generates the start offset 9, whose
clamped window holds only 1 sample — strictly fewer than S — and that
short window is handed to the spectrogram engine rather than the loop
terminating and the tail being discarded. -/
theorem cpu_loop_keeps_short_tail :
    cpuStarts 10 3 = [0, 3, 6, 9]
    ∧ windowLen 10 4 9 = 1
    ∧ windowLen 10 4 9 < 4 := by
  exact ⟨rfl, rfl, by decide⟩

/-- C6 counterexample: with N = 6 samples, snippet size S = 4 and
overlap O = 1 (step 3), the last generated window starts at 3 and
satisfies 3 + step ≥ N, yet the terminate flag is set for no generated
window at all, because (N // step) * step = 6 is not a generated
start. -/
theorem cpu_terminate_missed_when_divisible :
    cpuStarts 6 3 = [0, 3]
    ∧ cpuTerminate 6 3 3 = false
    ∧ cpuTerminate 6 3 0 = false
    ∧ 6 ≤ 3 + 3 := by
  exact ⟨rfl, by decide, by decide, by decide⟩

/-- Neither loop iteration changes the two stage flags: extraction
extends sequences only, and the GPU gate copies the state through. -/
lemma stepSnippet_flags (gpu : Bool) (detect : List ℚ → List ℚ)
    (chans : ℕ) (p : PipelineState × EngineState) (s : SnippetSpec) :
    (stepSnippet gpu detect chans p s).1.get_signals = p.1.get_signals
    ∧ (stepSnippet gpu detect chans p s).1.do_tracking = p.1.do_tracking := by
  cases gpu with
  | false => exact ⟨rfl, rfl⟩
  | true =>
    by_cases h : p.1.get_signals = true <;>
      simp [stepSnippet, extract_snippet_signals, extractFrom, h]

/-- The whole snippet loop preserves the two stage flags. -/
lemma processSnippets_flags (gpu : Bool) (detect : List ℚ → List ℚ)
    (chans : ℕ) (snips : List SnippetSpec)
    (p : PipelineState × EngineState) :
    (processSnippets gpu detect chans p snips).1.get_signals
        = p.1.get_signals
    ∧ (processSnippets gpu detect chans p snips).1.do_tracking
        = p.1.do_tracking := by
  induction snips generalizing p with
  | nil => exact ⟨rfl, rfl⟩
  | cons s rest ih =>
    have hs := stepSnippet_flags gpu detect chans p s
    have hr := ih (stepSnippet gpu detect chans p s)
    unfold processSnippets at hr ⊢
    rw [List.foldl_cons]
    exact ⟨hr.1.trans hs.1, hr.2.trans hs.2⟩

/-- A list-backed loop iteration never fails and agrees with the plain
loop step. -/
lemma stepSnippetE_listBacked (gpu : Bool) (detect : List ℚ → List ℚ)
    (chans : ℕ) (st : PipelineState) (eng : EngineState)
    (s : SnippetSpec) :
    stepSnippetE gpu detect chans (⟨st, true⟩, eng) s
      = some (⟨(stepSnippet gpu detect chans (st, eng) s).1, true⟩,
              (stepSnippet gpu detect chans (st, eng) s).2) := by
  cases gpu with
  | false => rfl
  | true =>
    by_cases hg : st.get_signals = true <;>
      simp [stepSnippetE, stepSnippet, hg]

/-- A list-backed run of the snippet loop never fails and agrees with
the plain loop. -/
lemma processSnippetsE_listBacked (gpu : Bool)
    (detect : List ℚ → List ℚ) (chans : ℕ) (snips : List SnippetSpec) :
    ∀ (st : PipelineState) (eng : EngineState),
      processSnippetsE gpu detect chans (⟨st, true⟩, eng) snips
        = some (⟨(processSnippets gpu detect chans (st, eng) snips).1,
            true⟩,
          (processSnippets gpu detect chans (st, eng) snips).2) := by
  induction snips with
  | nil => intro st eng; rfl
  | cons s rest ih =>
    intro st eng
    unfold processSnippetsE
    rw [stepSnippetE_listBacked]
    exact ih (stepSnippet gpu detect chans (st, eng) s).1
      (stepSnippet gpu detect chans (st, eng) s).2

/-- When the loop condition of `run` holds on a list-backed state, the
run is the plain snippet loop, the time-axis refresh and the tracking
gate. -/
lemma runPipeline_run_loop (gpu fine sparse : Bool)
    (snips : List SnippetSpec) (detect : List ℚ → List ℚ) (chans : ℕ)
    (trk : PipelineState → List (Option ℚ)) (st : PipelineState)
    (eng : EngineState)
    (h : (st.get_signals || fine || sparse) = true) :
    runPipeline gpu fine sparse snips detect chans trk ⟨st, true⟩ eng
      = some
        ((if ({ (processSnippets gpu detect chans (st, eng) snips).1 with
              times := (processSnippets gpu detect chans (st, eng)
                snips).2.times } : PipelineState).do_tracking
          then
            (⟨replace_identities
              { (processSnippets gpu detect chans (st, eng) snips).1 with
                times := (processSnippets gpu detect chans (st, eng)
                  snips).2.times }
              (trk { (processSnippets gpu detect chans (st, eng)
                  snips).1 with
                times := (processSnippets gpu detect chans (st, eng)
                  snips).2.times }), true⟩ : RunState)
          else ⟨{ (processSnippets gpu detect chans (st, eng) snips).1 with
              times := (processSnippets gpu detect chans (st, eng)
                snips).2.times }, true⟩),
         (processSnippets gpu detect chans (st, eng) snips).2) := by
  unfold runPipeline
  have h2 : ((⟨st, true⟩ : RunState).st.get_signals || fine || sparse)
      = true := h
  rw [h2, processSnippetsE_listBacked gpu detect chans snips st eng]
  rfl

/-- When the loop condition of `run` fails, the run succeeds and is
just the tracking gate over the untouched state. -/
lemma runPipeline_skip_loop (gpu fine sparse : Bool)
    (snips : List SnippetSpec) (detect : List ℚ → List ℚ) (chans : ℕ)
    (trk : PipelineState → List (Option ℚ)) (r : RunState)
    (eng : EngineState)
    (h : (r.st.get_signals || fine || sparse) = false) :
    runPipeline gpu fine sparse snips detect chans trk r eng
      = some
        ((if r.st.do_tracking then
            (⟨replace_identities r.st (trk r.st), r.listBacked⟩ : RunState)
          else r),
         eng) := by
  unfold runPipeline
  rw [h]
  rfl

/-- C1 counterexample: a checkpoint holding an assigned identity label
is loaded (so the claim says both extraction and tracking are skipped
and the run is a clean no-op), but because the engine fine-spectrogram
flag is set, the CPU-path run still enters the snippet loop and aborts
on the first snippet: the loaded vectors are numpy arrays without an
extend method, so line 446 raises AttributeError.  The run fails
instead of skipping. -/
theorem stage_selection_counterexample :
    (∃ o ∈ (⟨[], [], [], [some 1], []⟩ : Checkpoint).ident_v,
      o.isSome = true)
    ∧ runPipeline false true false [⟨[⟨0, [0]⟩], fun _ _ _ => 0⟩]
        (fun _ => [5]) 1 (fun _ => [])
        (initRun (some ⟨[], [], [], [some 1], []⟩)) (emptyEngine [0])
      = none := by
  exact ⟨⟨some 1, by simp, rfl⟩, rfl⟩

/-- C1 amended: provided the engine fine-spectrogram and
sparse-spectrogram product flags are both unset, stage selection is the
claimed three-way function of the checkpoint: with no checkpoint both
stage flags are true, the state is list-backed, and the run performs
the snippet loop followed by the tracking hand-off on the accumulated
state; with a checkpoint whose identities are all unassigned the
snippet loop is skipped, the four loaded detection sequences and the
loaded time axis are reused verbatim with no new detections appended,
and only tracking runs; with a checkpoint holding at least one assigned
identity the run completes changing neither the state nor the engine.
When the fine flag is set instead, a CPU-path run over any
checkpoint-loaded state aborts at the first snippet, because the loaded
vectors are numpy arrays and the extend call raises AttributeError. -/
theorem stage_selection (gpu : Bool) (snips : List SnippetSpec)
    (detect : List ℚ → List ℚ) (chans : ℕ)
    (trk : PipelineState → List (Option ℚ)) (eng : EngineState)
    (c : Checkpoint) :
    ((initRun none).st.get_signals = true
      ∧ (initRun none).st.do_tracking = true
      ∧ (initRun none).listBacked = true
      ∧ runPipeline gpu false false snips detect chans trk
          (initRun none) eng
        = some
          ((⟨replace_identities
              { (processSnippets gpu detect chans (initPipeline none, eng)
                  snips).1 with
                times := (processSnippets gpu detect chans
                  (initPipeline none, eng) snips).2.times }
              (trk { (processSnippets gpu detect chans
                  (initPipeline none, eng) snips).1 with
                times := (processSnippets gpu detect chans
                  (initPipeline none, eng) snips).2.times }),
            true⟩ : RunState),
           (processSnippets gpu detect chans (initPipeline none, eng)
             snips).2))
    ∧ ((∀ o ∈ c.ident_v, o = none) →
        runPipeline gpu false false snips detect chans trk
          (initRun (some c)) eng
        = some
          ((⟨replace_identities (initPipeline (some c))
              (trk (initPipeline (some c))), false⟩ : RunState), eng)
        ∧ (replace_identities (initPipeline (some c))
            (trk (initPipeline (some c)))).fund_v = c.fund_v
        ∧ (replace_identities (initPipeline (some c))
            (trk (initPipeline (some c)))).idx_v = c.idx_v
        ∧ (replace_identities (initPipeline (some c))
            (trk (initPipeline (some c)))).sign_v = c.sign_v
        ∧ (replace_identities (initPipeline (some c))
            (trk (initPipeline (some c)))).times = c.times)
    ∧ ((∃ o ∈ c.ident_v, o.isSome = true) →
        runPipeline gpu false false snips detect chans trk
          (initRun (some c)) eng = some (initRun (some c), eng))
    ∧ (∀ (s : SnippetSpec) (rest : List SnippetSpec),
        runPipeline false true false (s :: rest) detect chans trk
          (initRun (some c)) eng = none) := by
  refine ⟨⟨rfl, rfl, rfl, ?_⟩, ?_, ?_, ?_⟩
  · have hrw : initRun none = (⟨initPipeline none, true⟩ : RunState) := rfl
    rw [hrw, runPipeline_run_loop gpu false false snips detect chans trk
      (initPipeline none) eng rfl]
    have hdt : (processSnippets gpu detect chans (initPipeline none, eng)
        snips).1.do_tracking = true :=
      (processSnippets_flags gpu detect chans snips
        (initPipeline none, eng)).2
    simp [hdt]
  · intro h
    have hany : c.ident_v.any Option.isSome = false := by
      simp only [List.any_eq_false]
      intro o ho
      simp [h o ho]
    have hdt : (initPipeline (some c)).do_tracking = true := by
      show (!(c.ident_v.any Option.isSome)) = true
      rw [hany]
      rfl
    refine ⟨?_, rfl, rfl, rfl, rfl⟩
    rw [runPipeline_skip_loop gpu false false snips detect chans trk
      (initRun (some c)) eng rfl]
    simp [initRun, hdt]
  · intro h
    have hany : c.ident_v.any Option.isSome = true := by
      rw [List.any_eq_true]
      obtain ⟨o, ho, hs⟩ := h
      exact ⟨o, ho, hs⟩
    have hdt : (initPipeline (some c)).do_tracking = false := by
      show (!(c.ident_v.any Option.isSome)) = false
      rw [hany]
      rfl
    rw [runPipeline_skip_loop gpu false false snips detect chans trk
      (initRun (some c)) eng rfl]
    simp [initRun, hdt]
  · intro s rest
    rfl

/-- C1 amended witness: the all-unassigned and any-assigned checkpoint
cases of the amended stage-selection theorem, exercised on concrete
checkpoints. -/
theorem stage_selection_witness :
    runPipeline false false false [] (fun _ => [5]) 1
        (fun _ => [some 2]) (initRun (some ⟨[], [], [], [none], []⟩))
        (emptyEngine [])
      = some ((⟨⟨[], [], [], [some 2], [], false, true⟩, false⟩ : RunState),
         emptyEngine [])
    ∧ runPipeline false false false [] (fun _ => [5]) 1 (fun _ => [])
        (initRun (some ⟨[], [], [], [some 1], []⟩)) (emptyEngine [])
      = some (initRun (some ⟨[], [], [], [some 1], []⟩), emptyEngine []) := by
  constructor
  · have h := (stage_selection false [] (fun _ => [5]) 1
      (fun _ => [some 2]) (emptyEngine [])
      (⟨[], [], [], [none], []⟩ : Checkpoint)).2.1
      (by intro o ho; simpa using ho)
    rw [h.1]
    rfl
  · exact (stage_selection false [] (fun _ => [5]) 1 (fun _ => [])
      (emptyEngine []) (⟨[], [], [], [some 1], []⟩ : Checkpoint)).2.2.1
      ⟨some 1, by simp, rfl⟩


/-- The local index vector has one entry per detection. -/
lemma binIdx_length (e : ℕ) (tmpF : List (List ℚ)) :
    (binIdx e tmpF).length = tmpF.flatten.length := by
  induction tmpF generalizing e with
  | nil => rfl
  | cons f rest ih => simp [binIdx, ih]

/-- Every local index lies in the enumeration window of its snippet. -/
lemma binIdx_mem {e x : ℕ} {tmpF : List (List ℚ)}
    (hx : x ∈ binIdx e tmpF) : e ≤ x ∧ x < e + tmpF.length := by
  induction tmpF generalizing e with
  | nil => simp [binIdx] at hx
  | cons f rest ih =>
    rw [binIdx, List.mem_append] at hx
    rw [List.length_cons]
    rcases hx with hx | hx
    · rcases (List.mem_replicate.mp hx) with ⟨_, rfl⟩
      omega
    · have := ih hx
      omega

/-- The frequency-bin index vector has one entry per detection. -/
lemma fIdx_length (freqs : List ℚ) (tmpF : List (List ℚ)) :
    (fIdx freqs tmpF).length = tmpF.flatten.length := by
  induction tmpF with
  | nil => rfl
  | cons f rest ih =>
    simp only [fIdx, List.map_cons, List.flatten_cons, List.length_append,
      List.length_map] at ih ⊢
    omega

/-- Component description of one append: the three detection sequences
are extended by one entry per detection of the snippet, the index
extension is the local index vector shifted by the recorded offset, and
the identity sequence is rebuilt as all-unassigned over the new total
detection count.  The time-axis copy and the two flags are untouched. -/
lemma extractFrom_spec (tmpF : List (List ℚ)) (chans : ℕ)
    (st : PipelineState) (eng : EngineState) :
    (extractFrom tmpF chans st eng).fund_v.length
        = st.fund_v.length + tmpF.flatten.length
    ∧ (extractFrom tmpF chans st eng).idx_v
        = st.idx_v ++ (binIdx 0 tmpF).map
            (fun (e : ℕ) => (e : ℤ) + ((eng.times.length : ℤ)
              - (eng.cur.bins.length : ℤ)))
    ∧ (extractFrom tmpF chans st eng).sign_v.length
        = st.sign_v.length + tmpF.flatten.length
    ∧ (extractFrom tmpF chans st eng).ident_v
        = List.replicate (st.idx_v.length + tmpF.flatten.length) none
    ∧ (extractFrom tmpF chans st eng).times = st.times
    ∧ (extractFrom tmpF chans st eng).get_signals = st.get_signals
    ∧ (extractFrom tmpF chans st eng).do_tracking = st.do_tracking := by
  unfold extractFrom
  refine ⟨?_, rfl, ?_, ?_, rfl, rfl, rfl⟩
  · simp
  · simp only [List.length_append, List.length_map, List.length_zip,
      fIdx_length, binIdx_length, min_self]
  · simp only [List.length_append, List.length_map, binIdx_length]

/-- Invariant carried by the snippet loop: the four accumulated
sequences are index-aligned and every recorded global time-bin index is
a non-negative integer below the current global time-axis length. -/
def stInv (st : PipelineState) (eng : EngineState) : Prop :=
  st.fund_v.length = st.idx_v.length
  ∧ st.sign_v.length = st.idx_v.length
  ∧ st.ident_v.length = st.idx_v.length
  ∧ ∀ x ∈ st.idx_v, 0 ≤ x ∧ x < (eng.times.length : ℤ)

/-- One CPU-path append preserves the alignment invariant. -/
lemma stInv_extract (detect : List ℚ → List ℚ) (chans : ℕ)
    (st : PipelineState) (eng : EngineState) (s : SnippetSpec)
    (h : stInv st eng) :
    stInv (extract_snippet_signals detect chans st
      (snippet_spectrogram eng s)) (snippet_spectrogram eng s) := by
  obtain ⟨h1, h2, h3, h4⟩ := h
  have hs := extractFrom_spec (((snippet_spectrogram eng s).cur.bins.map
    TimeBin.col).map detect) chans st (snippet_spectrogram eng s)
  have htlen : (snippet_spectrogram eng s).times.length
      = eng.times.length + s.bins.length := by
    simp [snippet_spectrogram]
  have hcur : (snippet_spectrogram eng s).cur = s := rfl
  have htmpF : (((snippet_spectrogram eng s).cur.bins.map
      TimeBin.col).map detect).length = s.bins.length := by
    rw [hcur]; simp
  unfold extract_snippet_signals
  refine ⟨?_, ?_, ?_, ?_⟩
  · rw [hs.1, hs.2.1]
    simp only [List.length_append, List.length_map, binIdx_length, h1]
  · rw [hs.2.2.1, hs.2.1]
    simp only [List.length_append, List.length_map, binIdx_length, h2]
  · rw [hs.2.2.2.1, hs.2.1]
    simp only [List.length_append, List.length_map, binIdx_length,
      List.length_replicate]
  · rw [hs.2.1]
    intro x hx
    rw [List.mem_append] at hx
    rcases hx with hx | hx
    · have hb := h4 x hx
      rw [htlen]
      push_cast
      omega
    · rw [List.mem_map] at hx
      obtain ⟨e, he, rfl⟩ := hx
      have hb := binIdx_mem he
      rw [htmpF] at hb
      rw [htlen, hcur]
      push_cast
      omega

/-- One loop iteration preserves the alignment invariant on both
hardware paths. -/
lemma stInv_step (gpu : Bool) (detect : List ℚ → List ℚ) (chans : ℕ)
    (p : PipelineState × EngineState) (s : SnippetSpec)
    (h : stInv p.1 p.2) :
    stInv (stepSnippet gpu detect chans p s).1
      (stepSnippet gpu detect chans p s).2 := by
  obtain ⟨st, eng⟩ := p
  replace h : stInv st eng := h
  have hskip : stInv st (snippet_spectrogram eng s) := by
    obtain ⟨h1, h2, h3, h4⟩ := h
    refine ⟨h1, h2, h3, ?_⟩
    intro x hx
    have hb := h4 x hx
    have hgrow : (eng.times.length : ℤ)
        ≤ ((snippet_spectrogram eng s).times.length : ℤ) := by
      simp [snippet_spectrogram]
    omega
  cases gpu with
  | false => exact stInv_extract detect chans st eng s h
  | true =>
    by_cases hg : st.get_signals = true
    · have hred : stepSnippet true detect chans (st, eng) s
          = (extract_snippet_signals detect chans st
              (snippet_spectrogram eng s), snippet_spectrogram eng s) := by
        simp [stepSnippet, hg]
      rw [hred]
      exact stInv_extract detect chans st eng s h
    · have hred : stepSnippet true detect chans (st, eng) s
          = (st, snippet_spectrogram eng s) := by
        simp [stepSnippet, hg]
      rw [hred]
      exact hskip

/-- The whole loop preserves the alignment invariant. -/
lemma stInv_fold (gpu : Bool) (detect : List ℚ → List ℚ) (chans : ℕ)
    (snips : List SnippetSpec) (p : PipelineState × EngineState)
    (h : stInv p.1 p.2) :
    stInv (processSnippets gpu detect chans p snips).1
      (processSnippets gpu detect chans p snips).2 := by
  induction snips generalizing p with
  | nil => exact h
  | cons s rest ih =>
    unfold processSnippets
    rw [List.foldl_cons]
    exact ih _ (stInv_step gpu detect chans p s h)

/-- One CPU-path loop iteration decomposes the index vector into the
previous indices followed by the local indices of the snippet shifted
by the count of global time bins recorded before the snippet. -/
lemma step_idx_decomp (detect : List ℚ → List ℚ) (chans : ℕ)
    (p : PipelineState × EngineState) (s : SnippetSpec) :
    (stepSnippet false detect chans p s).1.idx_v
      = p.1.idx_v ++ (binIdx 0 ((s.bins.map TimeBin.col).map detect)).map
          (fun (e : ℕ) => (e : ℤ) + (p.2.times.length : ℤ)) := by
  obtain ⟨st, eng⟩ := p
  have hs := (extractFrom_spec ((s.bins.map TimeBin.col).map detect)
    chans st (snippet_spectrogram eng s)).2.1
  show (extractFrom ((s.bins.map TimeBin.col).map detect) chans st
    (snippet_spectrogram eng s)).idx_v = _
  rw [hs]
  congr 1
  apply List.map_congr_left
  intro e he
  have ht : (snippet_spectrogram eng s).times.length
      = eng.times.length + s.bins.length := by
    simp [snippet_spectrogram]
  have hc : (snippet_spectrogram eng s).cur.bins.length
      = s.bins.length := rfl
  rw [ht, hc]
  push_cast
  ring

/-- The indices added by one CPU-path loop iteration, as the dropped
suffix of the new index vector. -/
lemma step_new_idx (detect : List ℚ → List ℚ) (chans : ℕ)
    (p : PipelineState × EngineState) (s : SnippetSpec) :
    (stepSnippet false detect chans p s).1.idx_v.drop p.1.idx_v.length
      = (binIdx 0 ((s.bins.map TimeBin.col).map detect)).map
          (fun (e : ℕ) => (e : ℤ) + (p.2.times.length : ℤ)) := by
  rw [step_idx_decomp]
  exact List.drop_left _ _

/-- C2: after any sequence of append operations starting from the empty
pipeline state, the four sequences have equal length and every recorded
global time-bin index is a non-negative integer strictly below the
global time-axis length; moreover, the indices recorded by any single
append are below the time-axis length already at the moment of
recording.  The spectrogram engine model appends exactly one time-axis
entry per local bin, as the claim presupposes. -/
theorem append_alignment_invariant (snips : List SnippetSpec)
    (detect : List ℚ → List ℚ) (chans : ℕ) (freqs : List ℚ) :
    ((processSnippets false detect chans (emptyState, emptyEngine freqs)
        snips).1.fund_v.length
      = (processSnippets false detect chans (emptyState, emptyEngine freqs)
        snips).1.idx_v.length
    ∧ (processSnippets false detect chans (emptyState, emptyEngine freqs)
        snips).1.sign_v.length
      = (processSnippets false detect chans (emptyState, emptyEngine freqs)
        snips).1.idx_v.length
    ∧ (processSnippets false detect chans (emptyState, emptyEngine freqs)
        snips).1.ident_v.length
      = (processSnippets false detect chans (emptyState, emptyEngine freqs)
        snips).1.idx_v.length
    ∧ ∀ x ∈ (processSnippets false detect chans (emptyState,
        emptyEngine freqs) snips).1.idx_v,
        0 ≤ x ∧ x < ((processSnippets false detect chans (emptyState,
          emptyEngine freqs) snips).2.times.length : ℤ))
    ∧ ∀ (st : PipelineState) (eng : EngineState) (s : SnippetSpec),
        ∀ x ∈ ((stepSnippet false detect chans (st, eng) s).1.idx_v.drop
          st.idx_v.length),
          0 ≤ x ∧ x < ((stepSnippet false detect chans (st, eng)
            s).2.times.length : ℤ) := by
  constructor
  · exact stInv_fold false detect chans snips (emptyState, emptyEngine freqs)
      ⟨rfl, rfl, rfl, by intro x hx; simp [emptyState] at hx⟩
  · intro st eng s x hx
    have hX : (stepSnippet false detect chans (st, eng) s).1.idx_v.drop
        st.idx_v.length
        = (binIdx 0 ((s.bins.map TimeBin.col).map detect)).map
            (fun (e : ℕ) => (e : ℤ) + (eng.times.length : ℤ)) :=
      step_new_idx detect chans (st, eng) s
    rw [hX, List.mem_map] at hx
    obtain ⟨e, he, rfl⟩ := hx
    have hb := binIdx_mem he
    have hF : ((s.bins.map TimeBin.col).map detect).length
        = s.bins.length := by simp
    rw [hF] at hb
    have hT : (stepSnippet false detect chans (st, eng) s).2.times.length
        = eng.times.length + s.bins.length := by
      show (snippet_spectrogram eng s).times.length = _
      simp [snippet_spectrogram]
    rw [hT]
    push_cast
    omega

/-- C2 witness: the alignment invariant applied to one concrete snippet
with one detection at its single time bin. -/
theorem append_alignment_invariant_witness :
    0 ≤ (0 : ℤ)
    ∧ (0 : ℤ) < ((processSnippets false (fun _ => [7]) 1
        (emptyState, emptyEngine [0])
        [⟨[⟨0, [0]⟩], fun _ _ _ => 0⟩]).2.times.length : ℤ) := by
  have h := (append_alignment_invariant [⟨[⟨0, [0]⟩], fun _ _ _ => 0⟩]
    (fun _ => [7]) 1 [0]).1.2.2.2 0 (by decide)
  exact h

/-- C3: each append remaps the local time-bin indices of the snippet by
adding the count of global time bins recorded before the snippet, and
across two consecutive snippets every index recorded by the first is
strictly below every index recorded by the second. -/
theorem snippet_offset_remap (detect : List ℚ → List ℚ) (chans : ℕ)
    (st : PipelineState) (eng : EngineState) (s₁ s₂ : SnippetSpec) :
    ((stepSnippet false detect chans (st, eng) s₁).1.idx_v
      = st.idx_v ++ (binIdx 0 ((s₁.bins.map TimeBin.col).map detect)).map
          (fun (e : ℕ) => (e : ℤ) + (eng.times.length : ℤ)))
    ∧ ∀ x ∈ ((stepSnippet false detect chans (st, eng) s₁).1.idx_v.drop
          st.idx_v.length),
      ∀ y ∈ ((stepSnippet false detect chans
            (stepSnippet false detect chans (st, eng) s₁) s₂).1.idx_v.drop
          (stepSnippet false detect chans (st, eng) s₁).1.idx_v.length),
        x < y := by
  constructor
  · exact step_idx_decomp detect chans (st, eng) s₁
  · intro x hx y hy
    have hX : (stepSnippet false detect chans (st, eng) s₁).1.idx_v.drop
        st.idx_v.length
        = (binIdx 0 ((s₁.bins.map TimeBin.col).map detect)).map
            (fun (e : ℕ) => (e : ℤ) + (eng.times.length : ℤ)) :=
      step_new_idx detect chans (st, eng) s₁
    rw [hX, List.mem_map] at hx
    obtain ⟨e₁, he₁, rfl⟩ := hx
    have hb₁ := binIdx_mem he₁
    have hF₁ : ((s₁.bins.map TimeBin.col).map detect).length
        = s₁.bins.length := by simp
    rw [hF₁] at hb₁
    rw [step_new_idx detect chans (stepSnippet false detect chans (st, eng)
      s₁) s₂, List.mem_map] at hy
    obtain ⟨e₂, he₂, rfl⟩ := hy
    have hT : (stepSnippet false detect chans (st, eng) s₁).2.times.length
        = eng.times.length + s₁.bins.length := by
      show (snippet_spectrogram eng s₁).times.length = _
      simp [snippet_spectrogram]
    rw [hT]
    push_cast
    omega

/-- C3 witness: the remap equation and the boundary inequality at two
concrete single-bin snippets, each contributing one detection. -/
theorem snippet_offset_remap_witness :
    (0 : ℤ) ∈ ((stepSnippet false (fun _ => [7]) 1
        (emptyState, emptyEngine [0]) ⟨[⟨0, [0]⟩], fun _ _ _ => 0⟩).1.idx_v.drop
        emptyState.idx_v.length)
    ∧ (0 : ℤ) < 1 := by
  constructor
  · decide
  · exact (snippet_offset_remap (fun _ => [7]) 1 emptyState
      (emptyEngine [0]) ⟨[⟨0, [0]⟩], fun _ _ _ => 0⟩
      ⟨[⟨1, [0]⟩], fun _ _ _ => 0⟩).2 0 (by decide) 1 (by decide)

/-- C4: every append, on any pipeline state, leaves the identity
sequence consisting entirely of the unassigned sentinel, with one entry
per recorded detection; previously assigned identities anywhere in the
sequence are discarded. -/
theorem append_resets_identities (detect : List ℚ → List ℚ) (chans : ℕ)
    (st : PipelineState) (eng : EngineState) :
    (extract_snippet_signals detect chans st eng).ident_v
      = List.replicate
          (extract_snippet_signals detect chans st eng).idx_v.length none
    ∧ (∀ o ∈ (extract_snippet_signals detect chans st eng).ident_v,
        o = none)
    ∧ (st.fund_v.length = st.idx_v.length →
        (extract_snippet_signals detect chans st eng).ident_v.length
          = (extract_snippet_signals detect chans st eng).fund_v.length) := by
  have hs := extractFrom_spec ((eng.cur.bins.map TimeBin.col).map detect)
    chans st eng
  unfold extract_snippet_signals
  refine ⟨?_, ?_, ?_⟩
  · rw [hs.2.2.2.1, hs.2.1]
    simp [binIdx_length]
  · intro o ho
    rw [hs.2.2.2.1] at ho
    exact List.eq_of_mem_replicate ho
  · intro hlen
    rw [hs.2.2.2.1, hs.1]
    simp [hlen]

/-- C4 witness: the reset applied on a state whose identity sequence
held an assigned label and whose sequences are aligned. -/
theorem append_resets_identities_witness :
    (extract_snippet_signals (fun _ => [7]) 1
      ⟨[2], [0], [[3]], [some 4], [0], true, true⟩
      (snippet_spectrogram (emptyEngine [0])
        ⟨[⟨0, [0]⟩], fun _ _ _ => 0⟩)).ident_v.length
      = (extract_snippet_signals (fun _ => [7]) 1
      ⟨[2], [0], [[3]], [some 4], [0], true, true⟩
      (snippet_spectrogram (emptyEngine [0])
        ⟨[⟨0, [0]⟩], fun _ _ _ => 0⟩)).fund_v.length
    ∧ (∀ o ∈ (extract_snippet_signals (fun _ => [7]) 1
        ⟨[2], [0], [[3]], [some 4], [0], true, true⟩
        (snippet_spectrogram (emptyEngine [0])
          ⟨[⟨0, [0]⟩], fun _ _ _ => 0⟩)).ident_v, o = none) := by
  constructor
  · exact (append_resets_identities (fun _ => [7]) 1
      ⟨[2], [0], [[3]], [some 4], [0], true, true⟩
      (snippet_spectrogram (emptyEngine [0])
        ⟨[⟨0, [0]⟩], fun _ _ _ => 0⟩)).2.2 rfl
  · exact (append_resets_identities (fun _ => [7]) 1
      ⟨[2], [0], [[3]], [some 4], [0], true, true⟩
      (snippet_spectrogram (emptyEngine [0])
        ⟨[⟨0, [0]⟩], fun _ _ _ => 0⟩)).2.1

/-- Counting characterization of the arange upper index: an index is
below the ceiling division exactly when its multiple is below N. -/
lemma lt_ceil_iff (N step k : ℕ) (h : 0 < step) :
    k < (N + step - 1) / step ↔ k * step < N := by
  rw [Nat.lt_iff_add_one_le, Nat.le_div_iff_mul_le h]
  have h2 : (k + 1) * step = k * step + step := by ring
  rw [h2]
  omega

/-- The CPU loop start offsets are exactly the multiples of the step
strictly below the sample count. -/
lemma mem_cpuStarts_iff (N step i0 : ℕ) (h : 0 < step) :
    i0 ∈ cpuStarts N step ↔ step ∣ i0 ∧ i0 < N := by
  unfold cpuStarts
  rw [List.mem_map]
  constructor
  · rintro ⟨k, hk, rfl⟩
    rw [List.mem_range, lt_ceil_iff N step k h] at hk
    exact ⟨dvd_mul_left step k, hk⟩
  · rintro ⟨⟨k, rfl⟩, hlt⟩
    refine ⟨k, ?_, by ring⟩
    rw [List.mem_range, lt_ceil_iff N step k h, mul_comm]
    exact hlt

/-- C5 amended: the CPU snippet loop generates a window at every
multiple of the step strictly below the sample count; windows are never
padded (the clamped slice never exceeds the snippet size nor the sample
bounds) and a start that does not fit a full window yields a shorter
window which is still processed — the leftover tail is not discarded. -/
theorem cpu_windowing (N S O : ℕ) (hS : 0 < S) (hO : O < S) :
    (∀ i0, i0 ∈ cpuStarts N (S - O) ↔ (S - O) ∣ i0 ∧ i0 < N)
    ∧ ∀ i0 ∈ cpuStarts N (S - O),
        windowLen N S i0 ≤ S
        ∧ i0 + windowLen N S i0 ≤ N
        ∧ (i0 + S ≤ N → windowLen N S i0 = S)
        ∧ (N < i0 + S → windowLen N S i0 < S) := by
  have hstep : 0 < S - O := by omega
  constructor
  · intro i0
    exact mem_cpuStarts_iff N (S - O) i0 hstep
  · intro i0 hmem
    have hlt : i0 < N := ((mem_cpuStarts_iff N (S - O) i0 hstep).mp hmem).2
    unfold windowLen
    refine ⟨?_, ?_, ?_, ?_⟩ <;> omega

/-- C5 amended witness: start 9 is generated for N = 10, S = 4, O = 1
and its window is shorter than S. -/
theorem cpu_windowing_witness :
    (9 ∈ cpuStarts 10 3) ∧ windowLen 10 4 9 < 4 := by
  have h := cpu_windowing 10 4 1 (by decide) (by decide)
  exact ⟨(h.1 9).mpr (by decide),
    (h.2 9 ((h.1 9).mpr (by decide))).2.2.2 (by decide)⟩

/-- C6 amended: on the CPU path the terminate flag is set for a start
offset exactly when it equals floor division times the step; when the
step does not divide the sample count this offset is a generated start,
it is the largest one, and the next window would reach past the end —
so exactly the last window is marked final; when the step divides the
sample count, the flag is set for no generated start at all.  On the
GPU path the flag would be set only at snippet count N over S, a value
the loop never presents, so no GPU window is marked final. -/
theorem terminate_flag_behavior (N S O : ℕ) (hS : 0 < S) (hO : O < S) :
    (∀ i0, cpuTerminate N (S - O) i0 = true ↔ i0 = N / (S - O) * (S - O))
    ∧ (¬ (S - O) ∣ N →
        N / (S - O) * (S - O) ∈ cpuStarts N (S - O)
        ∧ (∀ i0 ∈ cpuStarts N (S - O), i0 ≤ N / (S - O) * (S - O))
        ∧ N ≤ N / (S - O) * (S - O) + (S - O))
    ∧ ((S - O) ∣ N → ∀ i0 ∈ cpuStarts N (S - O),
        cpuTerminate N (S - O) i0 = false)
    ∧ (∀ k, k < N / S → gpuTerminate N S k = false) := by
  have hstep : 0 < S - O := by omega
  refine ⟨?_, ?_, ?_, ?_⟩
  · intro i0
    unfold cpuTerminate
    rw [decide_eq_true_iff]
    exact eq_comm
  · intro hnd
    have hmod : N % (S - O) ≠ 0 := by
      intro hm
      exact hnd (Nat.dvd_iff_mod_eq_zero.mpr hm)
    have hdm := Nat.div_add_mod' N (S - O)
    have hmlt : N % (S - O) < S - O := Nat.mod_lt N hstep
    refine ⟨?_, ?_, ?_⟩
    · rw [mem_cpuStarts_iff N (S - O) _ hstep]
      exact ⟨dvd_mul_left (S - O) (N / (S - O)), by omega⟩
    · intro i0 hi
      obtain ⟨⟨k, rfl⟩, hlt⟩ := (mem_cpuStarts_iff N (S - O) _ hstep).mp hi
      rw [mul_comm (S - O) k] at hlt ⊢
      have hk : k ≤ N / (S - O) := by
        rw [Nat.le_div_iff_mul_le hstep]
        omega
      exact Nat.mul_le_mul_right (S - O) hk
    · omega
  · intro hd i0 hi
    obtain ⟨⟨k, rfl⟩, hlt⟩ := (mem_cpuStarts_iff N (S - O) _ hstep).mp hi
    have heq : N / (S - O) * (S - O) = N := Nat.div_mul_cancel hd
    unfold cpuTerminate
    rw [decide_eq_false_iff_not]
    omega
  · intro k hk
    unfold gpuTerminate
    rw [decide_eq_false_iff_not]
    omega

/-- C6 amended witness: for N = 10, S = 4, O = 1 (step 3, not dividing
10) the flag is set exactly at the last start 9, and a GPU iteration
below N over S is never marked. -/
theorem terminate_flag_behavior_witness :
    cpuTerminate 10 3 9 = true
    ∧ (9 ∈ cpuStarts 10 3)
    ∧ 10 ≤ 9 + 3
    ∧ gpuTerminate 10 4 0 = false := by
  have h := terminate_flag_behavior 10 4 1 (by decide) (by decide)
  exact ⟨(h.1 9).mpr (by decide), (h.2.1 (by decide)).1,
    (h.2.1 (by decide)).2.2, h.2.2.2 0 (by decide)⟩

/-- A pool completion step never changes the result-list length. -/
lemma schedStep_length (detect : List ℚ → List ℚ) (cols : List (List ℚ))
    (acc : List (Option (List ℚ))) (i : ℕ) :
    (schedStep detect cols acc i).length = acc.length := by
  unfold schedStep
  cases cols[i]? <;> simp

/-- Completing tasks never changes the result-list length. -/
lemma schedFold_length (detect : List ℚ → List ℚ) (cols : List (List ℚ))
    (order : List ℕ) :
    ∀ acc, (order.foldl (schedStep detect cols) acc).length
      = acc.length := by
  induction order with
  | nil => intro acc; rfl
  | cons i rest ih =>
    intro acc
    rw [List.foldl_cons, ih, schedStep_length]

/-- A slot whose task is not in the completion order keeps its value. -/
lemma schedFold_not_mem (detect : List ℚ → List ℚ)
    (cols : List (List ℚ)) (j : ℕ) (order : List ℕ) :
    ∀ acc, j ∉ order →
      (order.foldl (schedStep detect cols) acc)[j]? = acc[j]? := by
  induction order with
  | nil => intro acc _; rfl
  | cons i rest ih =>
    intro acc hj
    rw [List.foldl_cons,
      ih _ (fun hs => hj (List.mem_cons_of_mem i hs))]
    unfold schedStep
    cases cols[i]? with
    | none => rfl
    | some cv =>
      refine List.getElem?_set_ne ?_
      intro he
      subst he
      exact hj (List.mem_cons_self i rest)

/-- A slot whose task appears in the completion order ends up holding
exactly the detection list of its own time bin, no matter when the task
completed or how often. -/
lemma schedFold_mem (detect : List ℚ → List ℚ) (cols : List (List ℚ))
    (j : ℕ) (hj : j < cols.length) (order : List ℕ) :
    ∀ acc, acc.length = cols.length → j ∈ order →
      (order.foldl (schedStep detect cols) acc)[j]?
        = some (some (detect (cols.get ⟨j, hj⟩))) := by
  induction order with
  | nil => intro acc _ hmem; exact absurd hmem (List.not_mem_nil j)
  | cons i rest ih =>
    intro acc hlen hmem
    rw [List.foldl_cons]
    by_cases hr : j ∈ rest
    · exact ih _ (by rw [schedStep_length]; exact hlen) hr
    · have hij : i = j := by
        rcases List.mem_cons.mp hmem with h | h
        · exact h.symm
        · exact absurd h hr
      subst hij
      rw [schedFold_not_mem detect cols i rest _ hr]
      have hc : cols[i]? = some (cols.get ⟨i, hj⟩) :=
        List.getElem?_eq_getElem hj
      unfold schedStep
      rw [hc]
      exact List.getElem?_set_eq_of_lt _ (by rw [hlen]; exact hj)

/-- A completion order covering every time bin fills the result list
with exactly the bin-ordered sequential map. -/
lemma schedMap_covers (detect : List ℚ → List ℚ) (cols : List (List ℚ))
    (order : List ℕ)
    (hcov : ∀ j, j < cols.length → j ∈ order) :
    schedMap detect cols order = cols.map (fun c => some (detect c)) := by
  apply List.ext_getElem?
  intro n
  by_cases hn : n < cols.length
  · unfold schedMap
    rw [schedFold_mem detect cols n hn order _ (by simp) (hcov n hn),
      List.getElem?_map, List.getElem?_eq_getElem hn]
    rfl
  · have h1 : (schedMap detect cols order)[n]? = none := by
      apply List.getElem?_eq_none
      unfold schedMap
      rw [schedFold_length]
      simp
      omega
    have h2 : (cols.map (fun c => some (detect c)))[n]? = none := by
      apply List.getElem?_eq_none
      rw [List.length_map]
      omega
    rw [h1, h2]

/-- C9: for a fixed snippet, CPU extraction is independent of worker
scheduling: any completion order that covers every time bin yields the
same pipeline state as the bin-ordered sequential map, because results
are placed by time-bin index, not by completion order. -/
theorem extraction_schedule_independent (detect : List ℚ → List ℚ)
    (chans : ℕ) (order : List ℕ) (st : PipelineState)
    (eng : EngineState)
    (hcov : ∀ j, j < (eng.cur.bins.map TimeBin.col).length →
      j ∈ order) :
    extractScheduled detect chans order st eng
      = extract_snippet_signals detect chans st eng := by
  unfold extractScheduled extract_snippet_signals
  rw [schedMap_covers detect (eng.cur.bins.map TimeBin.col) order hcov]
  have htmp : ((eng.cur.bins.map TimeBin.col).map
      (fun c => some (detect c))).map (fun o => o.getD [])
      = (eng.cur.bins.map TimeBin.col).map detect := by
    rw [List.map_map]
    apply List.map_congr_left
    intro c hc
    rfl
  rw [htmp]

/-- C9 witness: a two-bin snippet whose workers complete in reversed
order produces the same state as the sequential extraction. -/
theorem extraction_schedule_independent_witness :
    extractScheduled (fun c => c) 1 [1, 0] emptyState
      ⟨[0], [0], ⟨[⟨0, [1]⟩, ⟨1, [2]⟩], fun _ _ _ => 0⟩, 0⟩
      = extract_snippet_signals (fun c => c) 1 emptyState
      ⟨[0], [0], ⟨[⟨0, [1]⟩, ⟨1, [2]⟩], fun _ _ _ => 0⟩, 0⟩ := by
  apply extraction_schedule_independent
  intro j hj
  have hj2 : j < 2 := by simpa using hj
  interval_cases j <;> decide
